import Mathlib

/-!
Verification development for the `contract_executor_t` reconciliation engine
(`src/clustering/table_contract/executor/executor.hpp`).

The header file contains the data model (`execution_key_t`, `execution_data_t`,
the member maps) and the inline bodies of `execution_key_t::role_name` and
`execution_key_t::operator<`; the bodies of `get_contract_key`, `update`,
`update_blocking` and `send_ack` are declared there but implemented outside the
given sources, so they are modelled from the specification (each such
definition's doc comment starts with `Modelled from the spec:`).

Identifiers (`server_id_t`, `branch_id_t`, `contract_id_t`) and opaque ordered
handles (`region_t`, store subviews, execution objects, ack payloads) are
embedded as natural numbers; `Option` models nullable ("unset") values.
-/

namespace RethinkExec

abbrev ServerId := Nat
abbrev BranchId := Nat
abbrev ContractId := Nat
abbrev RegionT := Nat

/-- The enum `execution_key_t::role_t`, the closed enum `{primary, secondary, erase}`. -/
inductive role_t where
  | primary
  | secondary
  | erase
deriving DecidableEq, Repr

/-- The underlying integer tag of the C++ enum value, in declaration order. -/
def role_t.toTag : role_t → Nat
  | .primary => 0
  | .secondary => 1
  | .erase => 2

/-- The switch statement inside `execution_key_t::role_name`, expressed on the
underlying enum tag.  `none` models the `default: unreachable()` branch, i.e.
the fatal abort on a role value outside the enum. -/
def roleNameOfTag (t : Nat) : Option String :=
  if t = 0 then some "primary"
  else if t = 1 then some "secondary"
  else if t = 2 then some "erase"
  else none

/-- The struct `execution_key_t`: region, role, upstream primary and branch.  In the C++
struct `primary` and `branch` are plain ids whose default (nil) value encodes
"unset"; we embed that as `Option`. -/
structure execution_key_t where
  region : RegionT
  role : role_t
  primary : Option ServerId
  branch : Option BranchId
deriving DecidableEq, Repr

/-- The method `execution_key_t::role_name()`. -/
def execution_key_t.role_name (k : execution_key_t) : Option String :=
  roleNameOfTag k.role.toTag

/-- Ordering on nullable ids: the nil ("unset") value is the least element,
matching the ordering of a default-constructed uuid against concrete ones. -/
def optLt (a b : Option Nat) : Bool :=
  match a, b with
  | none, none => false
  | none, some _ => true
  | some _, none => false
  | some x, some y => decide (x < y)

/-- The comparator `execution_key_t::operator<` from the source:
`std::tie(region, role, primary, branch) < std::tie(k.region, k.role, k.primary, k.branch)`,
i.e. lexicographic comparison of the four fields in that order. -/
def execution_key_t.lt (k k' : execution_key_t) : Bool :=
  decide (k.region < k'.region) ||
    (decide (k.region = k'.region) &&
      (decide (k.role.toTag < k'.role.toTag) ||
        (decide (k.role.toTag = k'.role.toTag) &&
          (optLt k.primary k'.primary ||
            (decide (k.primary = k'.primary) && optLt k.branch k'.branch)))))

/-- The struct `contract_t` (from `contract_metadata.hpp`, external to the given sources):
the per-region declaration of the primary server (possibly unset) and the set
of secondary servers.  Only the fields `get_contract_key` consults are kept. -/
structure contract_t where
  primary : Option ServerId
  secondaries : List ServerId
deriving DecidableEq, Repr

/-- One entry of the agreed state's contract map: a contract id together with
the (region, contract) pair it governs. -/
structure contract_pair_t where
  cid : ContractId
  region : RegionT
  contract : contract_t
deriving DecidableEq, Repr

/-- The struct `table_raft_state_t` restricted to the fields the executor reads: the
contract map and the `current_branches` table. -/
structure table_raft_state_t where
  contracts : List contract_pair_t
  current_branches : List (RegionT × BranchId)
deriving DecidableEq, Repr

/-- Look a region's current branch up in the `current_branches` table; an
absent region yields `none` (the "branch unset" value). -/
def lookupBranch (bs : List (RegionT × BranchId)) (r : RegionT) : Option BranchId :=
  (bs.find? (fun e => decide (e.1 = r))).map (fun e => e.2)

/-- Modelled from the spec: the body of `contract_executor_t::get_contract_key`
is only declared in `executor.hpp`.  §4.1: if this server is the contract's
primary then role = Primary, `primary` = self, `branch` = the looked-up branch;
if this server is among the secondaries then role = Secondary, `primary` = the
contract's primary, `branch` looked up the same way; otherwise role = Erase
with `primary`/`branch` unset. -/
def get_contract_key (self : ServerId) (region : RegionT) (c : contract_t)
    (branch : Option BranchId) : execution_key_t :=
  if c.primary = some self then
    { region := region, role := role_t.primary, primary := some self, branch := branch }
  else if self ∈ c.secondaries then
    { region := region, role := role_t.secondary, primary := c.primary, branch := branch }
  else
    { region := region, role := role_t.erase, primary := none, branch := none }

/-- The key of one agreed-state entry: `get_contract_key` applied to its
(region, contract) pair and the branch looked up by region. -/
def keyOfPair (self : ServerId) (branches : List (RegionT × BranchId))
    (p : contract_pair_t) : execution_key_t :=
  get_contract_key self p.region p.contract (lookupBranch branches p.region)

/-- The list of execution keys derivable from an agreed-state snapshot. -/
def deriveKeys (self : ServerId) (s : table_raft_state_t) : List execution_key_t :=
  s.contracts.map (keyOfPair self s.current_branches)

/-- The struct `execution_data_t`: the record stored in the registry.  `store_subview`
and `execution` are identity tokens standing for the keyspace-scoped store
subview object and the running `execution_t` object; `assigned` records every
contract id this record's execution has been given (at creation and by each
in-place update), which is what the running execution may reference in acks. -/
structure execution_data_t where
  contract_id : ContractId
  store_subview : Nat
  execution : Nat
  assigned : List ContractId
deriving DecidableEq, Repr

/-- The state of one `contract_executor_t`: the construction-time server id,
the registry `executions`, the fresh-token counter (the per-engine counter used
to identify newly allocated records), and the three published maps. -/
structure contract_executor_t where
  server_id : ServerId
  executions : List (execution_key_t × execution_data_t)
  counter : Nat
  ack_map : List ((ServerId × ContractId) × Nat)
  bcards : List ((ServerId × Option BranchId) × Nat)
  qcards : List (Nat × Nat)
deriving DecidableEq, Repr

/-- A freshly constructed executor: empty registry and empty published maps. -/
def initExecutor (sid : ServerId) : contract_executor_t :=
  { server_id := sid, executions := [], counter := 0,
    ack_map := [], bcards := [], qcards := [] }

/-- Association-list lookup in the registry (`executions.find(key)`). -/
def lookupExec (l : List (execution_key_t × execution_data_t))
    (k : execution_key_t) : Option execution_data_t :=
  (l.find? (fun e => decide (e.1 = k))).map (fun e => e.2)

/-- The registry's key set. -/
def keysOf (st : contract_executor_t) : List execution_key_t :=
  st.executions.map (fun e => e.1)

/-- The registry's execution-object identity tokens. -/
def tokensOf (st : contract_executor_t) : List Nat :=
  st.executions.map (fun e => e.2.execution)

/-- In-place update of the record at key `k`: only `contract_id` changes (and
the new id is recorded as assigned to the execution); the execution object and
store subview tokens are untouched. -/
def updateCid (l : List (execution_key_t × execution_data_t))
    (k : execution_key_t) (cid : ContractId) :
    List (execution_key_t × execution_data_t) :=
  l.map (fun e =>
    if e.1 = k then
      (e.1, { e.2 with contract_id := cid, assigned := e.2.assigned ++ [cid] })
    else e)

/-- Modelled from the spec: one step of the Reconciler's loop body (the body of
`contract_executor_t::update` is only declared in `executor.hpp`).  §4.2: if
the pair's key is already in the registry, update that record's contract id in
place; otherwise allocate a fresh record (fresh execution object and store
subview, identified by the counter) and insert it, a Primary record also
publishing its execution broadcast card (keyed by (server id, branch)) and its
query broadcast card (keyed by its per-execution unique id). -/
def applyPair (branches : List (RegionT × BranchId)) (st : contract_executor_t)
    (p : contract_pair_t) : contract_executor_t :=
  let key := keyOfPair st.server_id branches p
  if (lookupExec st.executions key).isSome then
    { st with executions := updateCid st.executions key p.cid }
  else
    let t := st.counter
    let d : execution_data_t :=
      { contract_id := p.cid, store_subview := t, execution := t, assigned := [p.cid] }
    { st with
      executions := st.executions ++ [(key, d)],
      counter := t + 1,
      bcards :=
        if key.role = role_t.primary then
          st.bcards ++ [((st.server_id, key.branch), t)]
        else st.bcards,
      qcards :=
        if key.role = role_t.primary then st.qcards ++ [(t, t)] else st.qcards }

/-- Modelled from the spec: `contract_executor_t::update` (§4.2).  Every
(region, contract) pair of the snapshot is reconciled against the registry
(creations and in-place updates applied immediately), and every registry key
not derivable from the snapshot is reported in `to_delete_out`; `update`
itself never removes a record. -/
def update (st : contract_executor_t) (s : table_raft_state_t) :
    contract_executor_t × List execution_key_t :=
  (s.contracts.foldl (applyPair s.current_branches) st,
   (keysOf st).filter (fun k => decide (k ∉ deriveKeys st.server_id s)))

/-- Destroy the record at key `k`: the record leaves the registry and the
broadcast cards owned by its execution object are removed with it. -/
def deleteKey (st : contract_executor_t) (k : execution_key_t) :
    contract_executor_t :=
  match lookupExec st.executions k with
  | none => st
  | some d =>
    { st with
      executions := st.executions.filter (fun e => decide (e.1 ≠ k)),
      bcards := st.bcards.filter (fun c => decide (c.2 ≠ d.execution)),
      qcards := st.qcards.filter (fun c => decide (c.1 ≠ d.execution)) }

/-- Modelled from the spec: one full pass of
`contract_executor_t::update_blocking` (§4.3): call `update` on the snapshot,
then delete every record whose key `update` reported for deletion. -/
def update_blocking (st : contract_executor_t) (s : table_raft_state_t) :
    contract_executor_t :=
  let r := update st s
  r.2.foldl deleteKey r.1

/-- Insert-or-replace in the ack map (`watchable_map_var_t::set_key`). -/
def setAck (m : List ((ServerId × ContractId) × Nat))
    (key : ServerId × ContractId) (v : Nat) :
    List ((ServerId × ContractId) × Nat) :=
  if (m.find? (fun e => decide (e.1 = key))).isSome then
    m.map (fun e => if e.1 = key then (key, v) else e)
  else m ++ [(key, v)]

/-- Modelled from the spec: `contract_executor_t::send_ack` (§4.4).  The
callback handed to an execution publishes an ack keyed by (this server's id,
contract id), but only while the calling execution currently governs that
contract id: its record must still be live in the registry under `key`, and
`cid` must be one of the contract ids that were assigned to that record. -/
def send_ack (st : contract_executor_t) (k : execution_key_t)
    (cid : ContractId) (ack : Nat) : contract_executor_t :=
  match lookupExec st.executions k with
  | none => st
  | some d =>
    if cid ∈ d.assigned then
      { st with ack_map := setAck st.ack_map (st.server_id, cid) ack }
    else st

/-- Modelled from the spec: the state of the change-driven pump
(`pump_coro_t`, §4.3 / §9): the number of currently executing
reconciliation-and-deletion passes, the coalescing "one more run requested"
flag, the last observed agreed state, and the executor it drives. -/
structure pump_state_t where
  active : Nat
  dirty : Bool
  latest : table_raft_state_t
  engine : contract_executor_t

/-- Events of the pump: a change signal from `raft_state_subs` carrying the
new agreed state, or the completion of the currently running pass. -/
inductive pump_event_t where
  | signal (s : table_raft_state_t)
  | finish

/-- Modelled from the spec: the pump's transition function (§4.3, §9).  A
change signal records the latest state and either starts a pass (if idle) or
sets the single "pending work" flag; a finishing pass performs one full
reconciliation-and-deletion pass on the latest observed state and then either
starts exactly one more pass (if the flag was set) or goes idle. -/
def pumpStep (ps : pump_state_t) : pump_event_t → pump_state_t
  | .signal s =>
    if ps.active = 0 then { ps with latest := s, active := 1 }
    else { ps with latest := s, dirty := true }
  | .finish =>
    if ps.active = 0 then ps
    else
      let engine := update_blocking ps.engine ps.latest
      if ps.dirty then
        { engine := engine, latest := ps.latest, active := 1, dirty := false }
      else
        { engine := engine, latest := ps.latest, active := 0, dirty := false }

/-- The pump's initial state: idle, no pending work. -/
def pumpInit (sid : ServerId) (s0 : table_raft_state_t) : pump_state_t :=
  { active := 0, dirty := false, latest := s0, engine := initExecutor sid }

/-- Executor states reachable from construction by full reconciliation passes
and ack callbacks. -/
inductive Reachable : contract_executor_t → Prop where
  | init (sid : ServerId) : Reachable (initExecutor sid)
  | pass {st : contract_executor_t} (s : table_raft_state_t) :
      Reachable st → Reachable (update_blocking st s)
  | ack {st : contract_executor_t} (k : execution_key_t) (cid : ContractId)
      (a : Nat) : Reachable st → Reachable (send_ack st k cid a)

/-- The executor's state invariant: registry keys are distinct, execution
tokens are distinct and below the counter, every broadcast card is owned by a
live Primary record, every live Primary record owns exactly one card in each
map, and every published ack and execution broadcast card carries the
construction-time server id. -/
structure Inv (st : contract_executor_t) : Prop where
  keys_nodup : (keysOf st).Nodup
  tok_lt : ∀ e ∈ st.executions, e.2.execution < st.counter
  tok_nodup : (tokensOf st).Nodup
  bcard_live : ∀ c ∈ st.bcards, ∃ e ∈ st.executions,
    e.1.role = role_t.primary ∧ e.2.execution = c.2 ∧
      c.1 = (st.server_id, e.1.branch)
  qcard_live : ∀ c ∈ st.qcards, ∃ e ∈ st.executions,
    e.1.role = role_t.primary ∧ e.2.execution = c.1
  bcard_one : ∀ e ∈ st.executions, e.1.role = role_t.primary →
    (st.bcards.filter (fun c => decide (c.2 = e.2.execution))).length = 1
  qcard_one : ∀ e ∈ st.executions, e.1.role = role_t.primary →
    (st.qcards.filter (fun c => decide (c.1 = e.2.execution))).length = 1
  ack_sid : ∀ a ∈ st.ack_map, a.1.1 = st.server_id
  bcard_sid : ∀ c ∈ st.bcards, c.1.1 = st.server_id

/-- A concrete one-contract snapshot used to instantiate theorems: region 1,
contract id 5, this server (id 0) primary, current branch 3. -/
def demoState : table_raft_state_t :=
  { contracts := [{ cid := 5, region := 1, contract := { primary := some 0, secondaries := [] } }],
    current_branches := [(1, 3)] }

/-- The execution key demoState derives for server 0. -/
def demoKey : execution_key_t :=
  { region := 1, role := role_t.primary, primary := some 0, branch := some 3 }

/-- A follow-up snapshot for the same region: contract 6 hands the primary
role to server 9 and demotes server 0 to secondary, so server 0's derived key
changes. -/
def demoState2 : table_raft_state_t :=
  { contracts := [{ cid := 6, region := 1, contract := { primary := some 9, secondaries := [0] } }],
    current_branches := [(1, 3)] }

/-- The record demoState's reconciliation creates for server 0. -/
def demoData : execution_data_t :=
  { contract_id := 5, store_subview := 0, execution := 0, assigned := [5] }

/-! ### Basic lemmas about registry lookup -/

@[simp]
theorem lookupExec_nil (k : execution_key_t) : lookupExec [] k = none := rfl

@[simp]
theorem lookupExec_cons (x : execution_key_t × execution_data_t)
    (l : List (execution_key_t × execution_data_t)) (k : execution_key_t) :
    lookupExec (x :: l) k = if x.1 = k then some x.2 else lookupExec l k := by
  by_cases h : x.1 = k <;> simp [lookupExec, List.find?_cons, h]

theorem lookupExec_append (l₁ l₂ : List (execution_key_t × execution_data_t))
    (k : execution_key_t) :
    lookupExec (l₁ ++ l₂) k =
      ((lookupExec l₁ k).rec (lookupExec l₂ k) (fun d => some d) :
        Option execution_data_t) := by
  induction l₁ with
  | nil => simp
  | cons x l ih => by_cases h : x.1 = k <;> simp [h, ih]

theorem lookupExec_isSome_iff (l : List (execution_key_t × execution_data_t))
    (k : execution_key_t) :
    (lookupExec l k).isSome = true ↔ k ∈ l.map (fun e => e.1) := by
  induction l with
  | nil => simp
  | cons x l ih =>
    by_cases h : x.1 = k <;> simp [h, ih]
    exact fun hk => (h hk.symm).elim

theorem lookupExec_eq_none_iff (l : List (execution_key_t × execution_data_t))
    (k : execution_key_t) :
    lookupExec l k = none ↔ k ∉ l.map (fun e => e.1) := by
  rw [← lookupExec_isSome_iff]
  cases lookupExec l k <;> simp

theorem lookupExec_mem (l : List (execution_key_t × execution_data_t))
    (k : execution_key_t) (d : execution_data_t)
    (h : lookupExec l k = some d) : (k, d) ∈ l := by
  induction l with
  | nil => simp at h
  | cons x l ih =>
    rcases x with ⟨k', d'⟩
    by_cases hk : k' = k
    · subst hk
      simp at h
      subst h
      exact List.mem_cons_self _ _
    · simp [hk] at h
      exact List.mem_cons_of_mem _ (ih h)

theorem lookupExec_eq_of_mem (l : List (execution_key_t × execution_data_t))
    (hnd : (l.map (fun e => e.1)).Nodup)
    (e : execution_key_t × execution_data_t) (he : e ∈ l) :
    lookupExec l e.1 = some e.2 := by
  induction l with
  | nil => simp at he
  | cons x l ih =>
    rw [List.map_cons, List.nodup_cons] at hnd
    rcases List.mem_cons.mp he with rfl | hmem
    · simp
    · have hne : x.1 ≠ e.1 := by
        intro hcontra
        exact hnd.1 (by rw [hcontra]; exact List.mem_map_of_mem (fun z => z.1) hmem)
      simp [hne, ih hnd.2 hmem]

/-! ### Lemmas about in-place contract-id updates -/

theorem updateCid_keys (l : List (execution_key_t × execution_data_t))
    (k : execution_key_t) (cid : ContractId) :
    (updateCid l k cid).map (fun e => e.1) = l.map (fun e => e.1) := by
  induction l with
  | nil => rfl
  | cons x l ih =>
    by_cases h : x.1 = k <;> simp [updateCid, h] at ih ⊢ <;> exact ih

theorem updateCid_tokens (l : List (execution_key_t × execution_data_t))
    (k : execution_key_t) (cid : ContractId) :
    (updateCid l k cid).map (fun e => e.2.execution) = l.map (fun e => e.2.execution) := by
  induction l with
  | nil => rfl
  | cons x l ih =>
    by_cases h : x.1 = k <;> simp [updateCid, h] at ih ⊢ <;> exact ih

theorem lookupExec_updateCid_self (l : List (execution_key_t × execution_data_t))
    (k : execution_key_t) (cid : ContractId) (d : execution_data_t)
    (h : lookupExec l k = some d) :
    lookupExec (updateCid l k cid) k =
      some { d with contract_id := cid, assigned := d.assigned ++ [cid] } := by
  induction l with
  | nil => simp at h
  | cons x l ih =>
    by_cases hk : x.1 = k
    · simp [hk] at h
      subst h
      simp [updateCid, hk]
    · simp [hk] at h
      simp [updateCid, hk, ih h]
      exact ih h

theorem lookupExec_updateCid_ne (l : List (execution_key_t × execution_data_t))
    (k k' : execution_key_t) (cid : ContractId) (h : k' ≠ k) :
    lookupExec (updateCid l k cid) k' = lookupExec l k' := by
  induction l with
  | nil => rfl
  | cons x l ih =>
    rcases x with ⟨xk, xd⟩
    by_cases hk : xk = k
    · subst hk
      have hcons : updateCid ((xk, xd) :: l) xk cid =
          (xk, { xd with contract_id := cid, assigned := xd.assigned ++ [cid] }) ::
            updateCid l xk cid := by
        simp [updateCid]
      rw [hcons, lookupExec_cons, lookupExec_cons]
      have hne : ¬ xk = k' := fun hc => h hc.symm
      rw [if_neg hne, if_neg hne]
      exact ih
    · have hcons : updateCid ((xk, xd) :: l) k cid = (xk, xd) :: updateCid l k cid := by
        simp [updateCid, hk]
      rw [hcons, lookupExec_cons, lookupExec_cons]
      by_cases hk' : xk = k'
      · rw [if_pos hk', if_pos hk']
      · rw [if_neg hk', if_neg hk']
        exact ih

/-! ### Lemmas about one Reconciler step (`applyPair`) -/

theorem applyPair_server_id (b : List (RegionT × BranchId))
    (st : contract_executor_t) (p : contract_pair_t) :
    (applyPair b st p).server_id = st.server_id := by
  unfold applyPair
  by_cases h : (lookupExec st.executions (keyOfPair st.server_id b p)).isSome <;> simp [h]

theorem applyPair_counter_le (b : List (RegionT × BranchId))
    (st : contract_executor_t) (p : contract_pair_t) :
    st.counter ≤ (applyPair b st p).counter := by
  unfold applyPair
  by_cases h : (lookupExec st.executions (keyOfPair st.server_id b p)).isSome <;> simp [h]

theorem applyPair_lookup_ne (b : List (RegionT × BranchId))
    (st : contract_executor_t) (p : contract_pair_t) (k : execution_key_t)
    (h : keyOfPair st.server_id b p ≠ k) :
    lookupExec (applyPair b st p).executions k = lookupExec st.executions k := by
  unfold applyPair
  by_cases hs : (lookupExec st.executions (keyOfPair st.server_id b p)).isSome
  · simp only [hs, if_true]
    exact lookupExec_updateCid_ne _ _ _ _ (fun hc => h hc.symm)
  · simp only [hs]
    simp only [Bool.false_eq_true, if_false]
    rw [lookupExec_append]
    cases hl : lookupExec st.executions k with
    | none => simp [lookupExec_cons, fun hc => h hc]
    | some d => simp

theorem applyPair_lookup_self_present (b : List (RegionT × BranchId))
    (st : contract_executor_t) (p : contract_pair_t) (d : execution_data_t)
    (h : lookupExec st.executions (keyOfPair st.server_id b p) = some d) :
    lookupExec (applyPair b st p).executions (keyOfPair st.server_id b p) =
      some { d with contract_id := p.cid, assigned := d.assigned ++ [p.cid] } := by
  unfold applyPair
  simp only [h, Option.isSome_some, if_true]
  exact lookupExec_updateCid_self _ _ _ _ h

theorem applyPair_lookup_self_absent (b : List (RegionT × BranchId))
    (st : contract_executor_t) (p : contract_pair_t)
    (h : lookupExec st.executions (keyOfPair st.server_id b p) = none) :
    lookupExec (applyPair b st p).executions (keyOfPair st.server_id b p) =
      some { contract_id := p.cid, store_subview := st.counter,
             execution := st.counter, assigned := [p.cid] } ∧
    (applyPair b st p).counter = st.counter + 1 := by
  unfold applyPair
  simp only [h, Option.isSome_none, Bool.false_eq_true, if_false]
  constructor
  · rw [lookupExec_append, h]
    simp
  · trivial

theorem applyPair_keys_mono (b : List (RegionT × BranchId))
    (st : contract_executor_t) (p : contract_pair_t) (k : execution_key_t)
    (h : k ∈ keysOf st) : k ∈ keysOf (applyPair b st p) := by
  unfold applyPair
  by_cases hs : (lookupExec st.executions (keyOfPair st.server_id b p)).isSome
  · simpa [keysOf, hs, updateCid_keys] using h
  · simp only [hs, Bool.false_eq_true, if_false]
    simp only [keysOf] at h ⊢
    simp [h]

theorem applyPair_keys_subset (b : List (RegionT × BranchId))
    (st : contract_executor_t) (p : contract_pair_t) (k : execution_key_t)
    (h : k ∈ keysOf (applyPair b st p)) :
    k ∈ keysOf st ∨ k = keyOfPair st.server_id b p := by
  unfold applyPair at h
  by_cases hs : (lookupExec st.executions (keyOfPair st.server_id b p)).isSome
  · simp only [hs, if_true] at h
    left
    simpa [keysOf, updateCid_keys] using h
  · simp only [hs, Bool.false_eq_true, if_false] at h
    simp only [keysOf, List.map_append] at h
    rcases List.mem_append.mp h with h1 | h2
    · exact Or.inl h1
    · right
      simpa using h2

theorem applyPair_key_present (b : List (RegionT × BranchId))
    (st : contract_executor_t) (p : contract_pair_t) :
    keyOfPair st.server_id b p ∈ keysOf (applyPair b st p) := by
  by_cases hs : (lookupExec st.executions (keyOfPair st.server_id b p)).isSome
  · apply applyPair_keys_mono
    rw [keysOf, ← lookupExec_isSome_iff]
    exact hs
  · rw [keysOf, ← lookupExec_isSome_iff]
    have h' : lookupExec st.executions (keyOfPair st.server_id b p) = none := by
      cases hl : lookupExec st.executions (keyOfPair st.server_id b p) with
      | none => rfl
      | some d => rw [hl] at hs; simp at hs
    rw [(applyPair_lookup_self_absent b st p h').1]
    rfl

/-! ### Lemmas about the Reconciler's fold over the snapshot -/

theorem foldl_applyPair_server_id (b : List (RegionT × BranchId))
    (l : List contract_pair_t) (st : contract_executor_t) :
    (l.foldl (applyPair b) st).server_id = st.server_id := by
  induction l generalizing st with
  | nil => rfl
  | cons p l ih => rw [List.foldl_cons, ih, applyPair_server_id]

theorem foldl_applyPair_counter_le (b : List (RegionT × BranchId))
    (l : List contract_pair_t) (st : contract_executor_t) :
    st.counter ≤ (l.foldl (applyPair b) st).counter := by
  induction l generalizing st with
  | nil => exact Nat.le_refl _
  | cons p l ih =>
    rw [List.foldl_cons]
    exact Nat.le_trans (applyPair_counter_le b st p) (ih _)

theorem foldl_applyPair_lookup_of_not_mem (b : List (RegionT × BranchId))
    (l : List contract_pair_t) (st : contract_executor_t) (k : execution_key_t)
    (h : ∀ p ∈ l, keyOfPair st.server_id b p ≠ k) :
    lookupExec ((l.foldl (applyPair b) st).executions) k =
      lookupExec st.executions k := by
  induction l generalizing st with
  | nil => rfl
  | cons p l ih =>
    rw [List.foldl_cons]
    have hsid : (applyPair b st p).server_id = st.server_id := applyPair_server_id b st p
    rw [ih _ (fun q hq => by rw [hsid]; exact h q (List.mem_cons_of_mem _ hq))]
    exact applyPair_lookup_ne b st p k (h p (List.mem_cons_self _ _))

theorem foldl_applyPair_lookup_stable (b : List (RegionT × BranchId))
    (l : List contract_pair_t) (st : contract_executor_t) (k : execution_key_t)
    (d : execution_data_t) (h : lookupExec st.executions k = some d) :
    ∃ d', lookupExec ((l.foldl (applyPair b) st).executions) k = some d' ∧
      d'.execution = d.execution ∧ d'.store_subview = d.store_subview ∧
      ∀ c ∈ d.assigned, c ∈ d'.assigned := by
  induction l generalizing st d with
  | nil => exact ⟨d, h, rfl, rfl, fun c hc => hc⟩
  | cons p l ih =>
    rw [List.foldl_cons]
    by_cases hk : keyOfPair st.server_id b p = k
    · have h2 := applyPair_lookup_self_present b st p d (hk ▸ h)
      rw [hk] at h2
      rcases ih _ _ h2 with ⟨d', hd', he, hs, ha⟩
      exact ⟨d', hd', he, hs, fun c hc => ha c (List.mem_append_left _ hc)⟩
    · exact ih _ _ (by rw [applyPair_lookup_ne b st p k hk]; exact h)

theorem foldl_applyPair_keys_mono (b : List (RegionT × BranchId))
    (l : List contract_pair_t) (st : contract_executor_t) (k : execution_key_t)
    (h : k ∈ keysOf st) : k ∈ keysOf (l.foldl (applyPair b) st) := by
  induction l generalizing st with
  | nil => exact h
  | cons p l ih => exact ih _ (applyPair_keys_mono b st p k h)

theorem foldl_applyPair_keys_new (b : List (RegionT × BranchId))
    (l : List contract_pair_t) (st : contract_executor_t) (p : contract_pair_t)
    (hp : p ∈ l) :
    keyOfPair st.server_id b p ∈ keysOf (l.foldl (applyPair b) st) := by
  induction l generalizing st with
  | nil => simp at hp
  | cons q l ih =>
    rw [List.foldl_cons]
    rcases List.mem_cons.mp hp with rfl | hmem
    · exact foldl_applyPair_keys_mono b l _ _ (applyPair_key_present b st p)
    · rw [← applyPair_server_id b st q]
      exact ih _ hmem

theorem foldl_applyPair_keys_subset (b : List (RegionT × BranchId))
    (l : List contract_pair_t) (st : contract_executor_t) (k : execution_key_t)
    (h : k ∈ keysOf (l.foldl (applyPair b) st)) :
    k ∈ keysOf st ∨ ∃ p ∈ l, k = keyOfPair st.server_id b p := by
  induction l generalizing st with
  | nil => exact Or.inl h
  | cons q l ih =>
    rw [List.foldl_cons] at h
    rcases ih _ h with h1 | ⟨p, hp, hk⟩
    · rcases applyPair_keys_subset b st q k h1 with h2 | h2
      · exact Or.inl h2
      · exact Or.inr ⟨q, List.mem_cons_self _ _, h2⟩
    · rw [applyPair_server_id] at hk
      exact Or.inr ⟨p, List.mem_cons_of_mem _ hp, hk⟩

theorem foldl_applyPair_lookup_update (b : List (RegionT × BranchId))
    (l : List contract_pair_t) (st : contract_executor_t) (p : contract_pair_t)
    (d : execution_data_t)
    (hnd : (l.map (keyOfPair st.server_id b)).Nodup) (hp : p ∈ l)
    (h : lookupExec st.executions (keyOfPair st.server_id b p) = some d) :
    lookupExec ((l.foldl (applyPair b) st).executions) (keyOfPair st.server_id b p) =
      some { d with contract_id := p.cid, assigned := d.assigned ++ [p.cid] } := by
  induction l generalizing st d with
  | nil => simp at hp
  | cons q l ih =>
    rw [List.map_cons, List.nodup_cons] at hnd
    rw [List.foldl_cons]
    rcases List.mem_cons.mp hp with rfl | hmem
    · have h2 := applyPair_lookup_self_present b st p d h
      have hrest : ∀ r ∈ l,
          keyOfPair (applyPair b st p).server_id b r ≠ keyOfPair st.server_id b p := by
        intro r hr hc
        rw [applyPair_server_id] at hc
        exact hnd.1 (hc ▸ List.mem_map_of_mem (keyOfPair st.server_id b) hr)
      rw [foldl_applyPair_lookup_of_not_mem b l _ _ hrest]
      exact h2
    · have hne : keyOfPair st.server_id b q ≠ keyOfPair st.server_id b p := by
        intro hc
        exact hnd.1 (hc ▸ List.mem_map_of_mem (keyOfPair st.server_id b) hmem)
      have h' : lookupExec (applyPair b st q).executions (keyOfPair st.server_id b p)
          = some d := by
        rw [applyPair_lookup_ne b st q _ hne]
        exact h
      have := ih (applyPair b st q) d
        (by rw [applyPair_server_id]; exact hnd.2)
        hmem (by rw [applyPair_server_id]; exact h')
      rw [applyPair_server_id] at this
      exact this

theorem foldl_applyPair_lookup_create (b : List (RegionT × BranchId))
    (l : List contract_pair_t) (st : contract_executor_t) (p : contract_pair_t)
    (hnd : (l.map (keyOfPair st.server_id b)).Nodup) (hp : p ∈ l)
    (h : lookupExec st.executions (keyOfPair st.server_id b p) = none) :
    ∃ t, st.counter ≤ t ∧
      lookupExec ((l.foldl (applyPair b) st).executions) (keyOfPair st.server_id b p) =
        some { contract_id := p.cid, store_subview := t, execution := t,
               assigned := [p.cid] } := by
  induction l generalizing st with
  | nil => simp at hp
  | cons q l ih =>
    rw [List.map_cons, List.nodup_cons] at hnd
    rw [List.foldl_cons]
    rcases List.mem_cons.mp hp with rfl | hmem
    · have h2 := applyPair_lookup_self_absent b st p h
      have hrest : ∀ r ∈ l,
          keyOfPair (applyPair b st p).server_id b r ≠ keyOfPair st.server_id b p := by
        intro r hr hc
        rw [applyPair_server_id] at hc
        exact hnd.1 (hc ▸ List.mem_map_of_mem (keyOfPair st.server_id b) hr)
      refine ⟨st.counter, Nat.le_refl _, ?_⟩
      rw [foldl_applyPair_lookup_of_not_mem b l _ _ hrest]
      exact h2.1
    · have hne : keyOfPair st.server_id b q ≠ keyOfPair st.server_id b p := by
        intro hc
        exact hnd.1 (hc ▸ List.mem_map_of_mem (keyOfPair st.server_id b) hmem)
      have h' : lookupExec (applyPair b st q).executions (keyOfPair st.server_id b p)
          = none := by
        rw [applyPair_lookup_ne b st q _ hne]
        exact h
      rcases ih (applyPair b st q)
        (by rw [applyPair_server_id]; exact hnd.2)
        hmem (by rw [applyPair_server_id]; exact h') with ⟨t, ht, hl⟩
      rw [applyPair_server_id] at hl
      exact ⟨t, Nat.le_trans (applyPair_counter_le b st q) ht, hl⟩

theorem foldl_applyPair_keys_exact (b : List (RegionT × BranchId))
    (l : List contract_pair_t) (st : contract_executor_t)
    (h : ∀ p ∈ l, keyOfPair st.server_id b p ∈ keysOf st) :
    keysOf (l.foldl (applyPair b) st) = keysOf st ∧
      (l.foldl (applyPair b) st).counter = st.counter := by
  induction l generalizing st with
  | nil => exact ⟨rfl, rfl⟩
  | cons q l ih =>
    rw [List.foldl_cons]
    have hq : (lookupExec st.executions (keyOfPair st.server_id b q)).isSome := by
      rw [lookupExec_isSome_iff]
      exact h q (List.mem_cons_self _ _)
    have hstep : applyPair b st q =
        { st with executions := updateCid st.executions (keyOfPair st.server_id b q) q.cid } := by
      unfold applyPair
      simp only [hq, if_true]
    have hkeys : keysOf (applyPair b st q) = keysOf st := by
      rw [hstep]
      exact updateCid_keys _ _ _
    have hctr : (applyPair b st q).counter = st.counter := by rw [hstep]
    have := ih (applyPair b st q) (by
      intro p hp
      rw [applyPair_server_id, hkeys]
      exact h p (List.mem_cons_of_mem _ hp))
    rw [hkeys, hctr] at this
    exact this

/-! ### Lemmas about record deletion -/

theorem filter_keys_comm (l : List (execution_key_t × execution_data_t))
    (k : execution_key_t) :
    (l.filter (fun e => decide (e.1 ≠ k))).map (fun e => e.1) =
      (l.map (fun e => e.1)).filter (fun x => decide (x ≠ k)) := by
  induction l with
  | nil => rfl
  | cons x l ih =>
    simp only [ne_eq, decide_not] at ih ⊢
    by_cases h : x.1 = k <;> simp [h, ih]

theorem deleteKey_server_id (st : contract_executor_t) (k : execution_key_t) :
    (deleteKey st k).server_id = st.server_id := by
  unfold deleteKey
  cases lookupExec st.executions k <;> rfl

theorem deleteKey_counter (st : contract_executor_t) (k : execution_key_t) :
    (deleteKey st k).counter = st.counter := by
  unfold deleteKey
  cases lookupExec st.executions k <;> rfl

theorem deleteKey_keys (st : contract_executor_t) (k : execution_key_t) :
    keysOf (deleteKey st k) = (keysOf st).filter (fun x => decide (x ≠ k)) := by
  unfold deleteKey
  cases hl : lookupExec st.executions k with
  | none =>
    have hk : k ∉ keysOf st := (lookupExec_eq_none_iff _ _).mp hl
    show keysOf st = (keysOf st).filter (fun x => decide (x ≠ k))
    symm
    apply List.filter_eq_self.mpr
    intro x hx
    simp only [ne_eq, decide_not, Bool.not_eq_eq_eq_not, Bool.not_true, decide_eq_false_iff_not]
    exact fun hc => hk (hc ▸ hx)
  | some d => exact filter_keys_comm st.executions k

theorem lookup_filter_ne (l : List (execution_key_t × execution_data_t))
    (k k' : execution_key_t) (h : k' ≠ k) :
    lookupExec (l.filter (fun e => decide (e.1 ≠ k))) k' = lookupExec l k' := by
  induction l with
  | nil => rfl
  | cons x l ih =>
    by_cases hk : x.1 = k
    · have hx : ¬ x.1 = k' := by rw [hk]; exact fun hc => h hc.symm
      have hfil : (x :: l).filter (fun e => decide (e.1 ≠ k)) =
          l.filter (fun e => decide (e.1 ≠ k)) := by
        simp [List.filter_cons, hk]
      rw [hfil, ih, lookupExec_cons, if_neg hx]
    · have hfil : (x :: l).filter (fun e => decide (e.1 ≠ k)) =
          x :: l.filter (fun e => decide (e.1 ≠ k)) := by
        simp [List.filter_cons, hk]
      rw [hfil, lookupExec_cons, lookupExec_cons, ih]

theorem deleteKey_lookup_self (st : contract_executor_t) (k : execution_key_t) :
    lookupExec (deleteKey st k).executions k = none := by
  unfold deleteKey
  cases hl : lookupExec st.executions k with
  | none => exact hl
  | some d =>
    show lookupExec (st.executions.filter (fun e => decide (e.1 ≠ k))) k = none
    rw [lookupExec_eq_none_iff]
    intro hmem
    rw [filter_keys_comm] at hmem
    rcases List.mem_filter.mp hmem with ⟨_, hdec⟩
    simp at hdec

theorem deleteKey_lookup_ne (st : contract_executor_t) (k k' : execution_key_t)
    (h : k' ≠ k) :
    lookupExec (deleteKey st k).executions k' = lookupExec st.executions k' := by
  unfold deleteKey
  cases hl : lookupExec st.executions k with
  | none => rfl
  | some d => exact lookup_filter_ne st.executions k k' h

theorem foldl_deleteKey_none (dels : List execution_key_t)
    (st : contract_executor_t) (k : execution_key_t)
    (h : lookupExec st.executions k = none) :
    lookupExec ((dels.foldl deleteKey st).executions) k = none := by
  induction dels generalizing st with
  | nil => exact h
  | cons d0 dels ih =>
    rw [List.foldl_cons]
    apply ih
    by_cases hk : k = d0
    · rw [hk]; exact deleteKey_lookup_self st d0
    · rw [deleteKey_lookup_ne st d0 k hk]; exact h

theorem foldl_deleteKey_lookup (dels : List execution_key_t)
    (st : contract_executor_t) (k : execution_key_t) :
    lookupExec ((dels.foldl deleteKey st).executions) k =
      if k ∈ dels then none else lookupExec st.executions k := by
  induction dels generalizing st with
  | nil => simp
  | cons d0 dels ih =>
    rw [List.foldl_cons]
    by_cases hk : k = d0
    · subst hk
      simp only [List.mem_cons, true_or, if_true]
      exact foldl_deleteKey_none dels _ k (deleteKey_lookup_self st k)
    · rw [ih]
      by_cases hmem : k ∈ dels
      · simp [hmem]
      · have : k ∉ (d0 :: dels) := by
          intro hc
          rcases List.mem_cons.mp hc with hc | hc
          · exact hk hc
          · exact hmem hc
        simp only [hmem, if_false, this, if_false]
        exact deleteKey_lookup_ne st d0 k hk

theorem foldl_deleteKey_server_id (dels : List execution_key_t)
    (st : contract_executor_t) :
    ((dels.foldl deleteKey st).server_id) = st.server_id := by
  induction dels generalizing st with
  | nil => rfl
  | cons d0 dels ih => rw [List.foldl_cons, ih, deleteKey_server_id]

theorem foldl_deleteKey_counter (dels : List execution_key_t)
    (st : contract_executor_t) :
    ((dels.foldl deleteKey st).counter) = st.counter := by
  induction dels generalizing st with
  | nil => rfl
  | cons d0 dels ih => rw [List.foldl_cons, ih, deleteKey_counter]

theorem update_server_id (st : contract_executor_t) (s : table_raft_state_t) :
    (update st s).1.server_id = st.server_id :=
  foldl_applyPair_server_id _ _ _

theorem update_blocking_server_id (st : contract_executor_t) (s : table_raft_state_t) :
    (update_blocking st s).server_id = st.server_id := by
  unfold update_blocking
  rw [foldl_deleteKey_server_id, update_server_id]

/-! ### Ordering helpers for the execution key -/

theorem optLt_irrefl (a : Option Nat) : optLt a a = false := by
  cases a <;> simp [optLt]

theorem optLt_trichotomy (a b : Option Nat) :
    optLt a b = true ∨ optLt b a = true ∨ a = b := by
  cases a <;> cases b <;> simp [optLt]
  omega

theorem role_toTag_inj (r r' : role_t) (h : r.toTag = r'.toTag) : r = r' := by
  cases r <;> cases r' <;> simp [role_t.toTag] at h ⊢

theorem executionKeyLt_trichotomy (k k' : execution_key_t) :
    execution_key_t.lt k k' = true ∨ execution_key_t.lt k' k = true ∨ k = k' := by
  rcases k with ⟨r1, ro1, p1, b1⟩
  rcases k' with ⟨r2, ro2, p2, b2⟩
  rcases Nat.lt_trichotomy r1 r2 with h | h | h
  · left; simp [execution_key_t.lt, h]
  · subst h
    rcases Nat.lt_trichotomy ro1.toTag ro2.toTag with h2 | h2 | h2
    · left; simp [execution_key_t.lt, h2]
    · have hro : ro1 = ro2 := role_toTag_inj ro1 ro2 h2
      subst hro
      rcases optLt_trichotomy p1 p2 with h3 | h3 | h3
      · left; simp [execution_key_t.lt, h3]
      · right; left; simp [execution_key_t.lt, h3]
      · subst h3
        rcases optLt_trichotomy b1 b2 with h4 | h4 | h4
        · left; simp [execution_key_t.lt, h4]
        · right; left; simp [execution_key_t.lt, h4]
        · subst h4
          right; right; rfl
    · right; left; simp [execution_key_t.lt, h2]
  · right; left; simp [execution_key_t.lt, h]

theorem executionKeyLt_irrefl (k : execution_key_t) : execution_key_t.lt k k = false := by
  rcases k with ⟨r, ro, p, b⟩
  simp [execution_key_t.lt, optLt_irrefl]

/-! ### Claim theorems -/

/-- C9: for each of the three recognized role values `role_name` returns the
corresponding name string without reaching the `unreachable()` branch; the
abort branch (`none`) is taken exactly for a tag outside the enum; and keys
built by `get_contract_key` never reach the fatal path. -/
theorem role_name_total_claim9 :
    (∀ k : execution_key_t, k.role_name =
      some (match k.role with
            | role_t.primary => "primary"
            | role_t.secondary => "secondary"
            | role_t.erase => "erase")) ∧
    (∀ t : Nat, roleNameOfTag t = none ↔ 3 ≤ t) ∧
    (∀ (self : ServerId) (r : RegionT) (c : contract_t) (b : Option BranchId),
      ((get_contract_key self r c b).role_name).isSome = true) := by
  refine ⟨?_, ?_, ?_⟩
  · intro k
    rcases k with ⟨reg, ro, pr, br⟩
    cases ro <;> simp [execution_key_t.role_name, role_t.toTag, roleNameOfTag]
  · intro t
    unfold roleNameOfTag
    split_ifs with h1 h2 h3 <;> simp <;> omega
  · intro self r c b
    unfold get_contract_key
    split_ifs <;>
      simp [execution_key_t.role_name, roleNameOfTag, role_t.toTag]

/-- C2: `get_contract_key` is a pure function of (self, region, contract,
looked-up branch) and obeys the three-way rule of §4.1; for a non-Erase role
an absent branch yields a key distinct from any concrete-branch key. -/
theorem get_contract_key_rule_claim2 :
    ∀ (self : ServerId) (r : RegionT) (c : contract_t) (b : Option BranchId),
      (c.primary = some self →
        get_contract_key self r c b =
          { region := r, role := role_t.primary, primary := some self, branch := b }) ∧
      (c.primary ≠ some self → self ∈ c.secondaries →
        get_contract_key self r c b =
          { region := r, role := role_t.secondary, primary := c.primary, branch := b }) ∧
      (c.primary ≠ some self → self ∉ c.secondaries →
        get_contract_key self r c b =
          { region := r, role := role_t.erase, primary := none, branch := none }) ∧
      ((c.primary = some self ∨ self ∈ c.secondaries) →
        ∀ bb : BranchId,
          get_contract_key self r c none ≠ get_contract_key self r c (some bb)) := by
  intro self r c b
  refine ⟨?_, ?_, ?_, ?_⟩
  · intro h
    simp [get_contract_key, h]
  · intro h1 h2
    simp [get_contract_key, h1, h2]
  · intro h1 h2
    simp [get_contract_key, h1, h2]
  · intro h bb hc
    by_cases hp : c.primary = some self
    · simp [get_contract_key, hp] at hc
    · rcases h with h | h
      · exact hp h
      · simp [get_contract_key, hp, h] at hc

/-- Witness for C2 at a concrete input: server 0 is the contract's primary,
so the derived key has role Primary, primary self and the given branch. -/
theorem get_contract_key_rule_claim2_witness :
    ({ primary := some 0, secondaries := [] } : contract_t).primary = some 0 ∧
    get_contract_key 0 1 { primary := some 0, secondaries := [] } (some 3) =
      { region := 1, role := role_t.primary, primary := some 0, branch := some 3 } :=
  ⟨rfl, (get_contract_key_rule_claim2 0 1 { primary := some 0, secondaries := [] }
    (some 3)).1 rfl⟩

theorem applyPair_keys_absent (b : List (RegionT × BranchId))
    (st : contract_executor_t) (p : contract_pair_t)
    (h : lookupExec st.executions (keyOfPair st.server_id b p) = none) :
    keysOf (applyPair b st p) = keysOf st ++ [keyOfPair st.server_id b p] := by
  unfold applyPair
  simp only [h, Option.isSome_none, Bool.false_eq_true, if_false]
  simp [keysOf]

/-- C3: two contracts for the same area produce the same key iff role, region,
primary and branch all agree (via the source's `operator<`: mutual
non-less-than is exactly four-field equality); the contract id is not part of
the key; and when the key changes, one reconciliation pass performs exactly
one deferred deletion and one fresh creation — the old record is not updated
in place, and after the blocking phase only the new key remains. -/
theorem key_stability_claim3 :
    (∀ k k' : execution_key_t,
      (execution_key_t.lt k k' = false ∧ execution_key_t.lt k' k = false) ↔ k = k') ∧
    (∀ (self : ServerId) (b : List (RegionT × BranchId)) (p : contract_pair_t)
        (c : ContractId),
      keyOfPair self b { p with cid := c } = keyOfPair self b p) ∧
    (∀ (st : contract_executor_t) (s : table_raft_state_t) (k : execution_key_t)
        (d : execution_data_t) (p : contract_pair_t),
      st.executions = [(k, d)] →
      s.contracts = [p] →
      keyOfPair st.server_id s.current_branches p ≠ k →
      d.execution < st.counter →
      (update st s).2 = [k] ∧
      lookupExec (update st s).1.executions k = some d ∧
      (∃ d' : execution_data_t,
        lookupExec (update st s).1.executions
          (keyOfPair st.server_id s.current_branches p) = some d' ∧
        d'.execution ≠ d.execution) ∧
      keysOf (update_blocking st s) = [keyOfPair st.server_id s.current_branches p]) := by
  refine ⟨?_, ?_, ?_⟩
  · intro k k'
    constructor
    · rintro ⟨h1, h2⟩
      rcases executionKeyLt_trichotomy k k' with h | h | h
      · rw [h1] at h; exact absurd h (by simp)
      · rw [h2] at h; exact absurd h (by simp)
      · exact h
    · rintro rfl
      exact ⟨executionKeyLt_irrefl k, executionKeyLt_irrefl k⟩
  · intro self b p c
    rfl
  · intro st s k d p hexec hcontracts hne htok
    have hkne : ¬ (k = keyOfPair st.server_id s.current_branches p) :=
      fun hc => hne hc.symm
    have hkeys : keysOf st = [k] := by simp [keysOf, hexec]
    have hlook : lookupExec st.executions
        (keyOfPair st.server_id s.current_branches p) = none := by
      rw [hexec, lookupExec_cons]
      simp [hkne]
    have hlookk : lookupExec st.executions k = some d := by
      rw [hexec, lookupExec_cons]
      simp
    have hupd1 : (update st s).1 = applyPair s.current_branches st p := by
      simp [update, hcontracts]
    have hderive : deriveKeys st.server_id s =
        [keyOfPair st.server_id s.current_branches p] := by
      simp [deriveKeys, hcontracts]
    have hdels : (update st s).2 = [k] := by
      show (keysOf st).filter (fun x => decide (x ∉ deriveKeys st.server_id s)) = [k]
      rw [hkeys, hderive]
      simp [hkne]
    refine ⟨hdels, ?_, ?_, ?_⟩
    · rw [hupd1, applyPair_lookup_ne s.current_branches st p k hne]
      exact hlookk
    · refine ⟨⟨p.cid, st.counter, st.counter, [p.cid]⟩, ?_, ?_⟩
      · rw [hupd1]
        exact (applyPair_lookup_self_absent s.current_branches st p hlook).1
      · exact fun hc => Nat.lt_irrefl _ (hc ▸ htok)
    · have hub : update_blocking st s = deleteKey (update st s).1 k := by
        show (update st s).2.foldl deleteKey (update st s).1 = _
        rw [hdels]
        rfl
      rw [hub, deleteKey_keys, hupd1, applyPair_keys_absent _ _ _ hlook, hkeys]
      simp [hkne, hne]

/-- Witness for C3's key-change scenario at a concrete input: server 0 loses
the primary role for region 1 (contract 6 makes it a secondary of server 9),
so pass two deletes the Primary record and creates a Secondary one. -/
theorem key_stability_claim3_witness :
    (update (update_blocking (initExecutor 0) demoState) demoState2).2 = [demoKey] := by
  have h := (key_stability_claim3).2.2
    (update_blocking (initExecutor 0) demoState) demoState2 demoKey demoData
    ⟨6, 1, ⟨some 9, [0]⟩⟩
    (by decide) (by decide) (by decide) (by decide)
  exact h.1

/-- C1: one `update` call partitions the derived keys against the registry in
exactly three ways — a key present in both sides has only its record's
contract id rewritten (execution object and store subview untouched); a key
present only in the new set gets a freshly allocated record (its execution
identity differs from every pre-existing one); a key present only in the
registry is reported in `to_delete_out` with its record left live and
untouched, and `update` never removes any record. -/
theorem update_partition_claim1 (st : contract_executor_t) (s : table_raft_state_t)
    (hnd : (deriveKeys st.server_id s).Nodup)
    (htok : ∀ e ∈ st.executions, e.2.execution < st.counter) :
    (∀ p ∈ s.contracts, ∀ d : execution_data_t,
      lookupExec st.executions (keyOfPair st.server_id s.current_branches p) = some d →
      lookupExec (update st s).1.executions (keyOfPair st.server_id s.current_branches p) =
        some { d with contract_id := p.cid, assigned := d.assigned ++ [p.cid] }) ∧
    (∀ p ∈ s.contracts,
      lookupExec st.executions (keyOfPair st.server_id s.current_branches p) = none →
      ∃ d' : execution_data_t,
        lookupExec (update st s).1.executions
          (keyOfPair st.server_id s.current_branches p) = some d' ∧
        d'.contract_id = p.cid ∧
        ∀ e ∈ st.executions, e.2.execution ≠ d'.execution) ∧
    (∀ k, k ∈ keysOf st → k ∉ deriveKeys st.server_id s →
      k ∈ (update st s).2 ∧
      lookupExec (update st s).1.executions k = lookupExec st.executions k) ∧
    (∀ k, k ∈ keysOf st → k ∈ keysOf (update st s).1) := by
  refine ⟨?_, ?_, ?_, ?_⟩
  · intro p hp d h
    exact foldl_applyPair_lookup_update s.current_branches s.contracts st p d hnd hp h
  · intro p hp h
    rcases foldl_applyPair_lookup_create s.current_branches s.contracts st p hnd hp h
      with ⟨t, ht, hl⟩
    refine ⟨⟨p.cid, t, t, [p.cid]⟩, hl, rfl, ?_⟩
    intro e he hc
    have hlt := htok e he
    rw [hc] at hlt
    exact Nat.lt_irrefl t (Nat.lt_of_lt_of_le hlt ht)
  · intro k hk hnot
    constructor
    · show k ∈ (keysOf st).filter (fun x => decide (x ∉ deriveKeys st.server_id s))
      exact List.mem_filter.mpr ⟨hk, by simpa using hnot⟩
    · apply foldl_applyPair_lookup_of_not_mem
      intro p hp hc
      exact hnot (hc ▸ List.mem_map_of_mem (keyOfPair st.server_id s.current_branches) hp)
  · intro k hk
    exact foldl_applyPair_keys_mono s.current_branches s.contracts st k hk

/-- Witness for C1 at a concrete input: reconciling demoState against the
registry the first pass built performs the stable-key in-place contract-id
rewrite on the Primary record. -/
theorem update_partition_claim1_witness :
    lookupExec (update (update_blocking (initExecutor 0) demoState) demoState).1.executions
      demoKey = some ⟨5, 0, 0, [5, 5]⟩ := by
  have h := update_partition_claim1 (update_blocking (initExecutor 0) demoState)
    demoState (by decide) (by decide)
  exact h.1 ⟨5, 1, ⟨some 0, []⟩⟩ (by decide) demoData (by decide)

theorem applyPair_keys_nodup (b : List (RegionT × BranchId))
    (st : contract_executor_t) (p : contract_pair_t)
    (h : (keysOf st).Nodup) : (keysOf (applyPair b st p)).Nodup := by
  unfold applyPair
  by_cases hs : (lookupExec st.executions (keyOfPair st.server_id b p)).isSome
  · simp only [hs, if_true]
    show ((updateCid st.executions (keyOfPair st.server_id b p) p.cid).map
      (fun e => e.1)).Nodup
    rw [updateCid_keys]
    exact h
  · simp only [hs, Bool.false_eq_true, if_false]
    have hnone : lookupExec st.executions (keyOfPair st.server_id b p) = none := by
      cases hl : lookupExec st.executions (keyOfPair st.server_id b p) with
      | none => rfl
      | some d => rw [hl] at hs; simp at hs
    have hkey : keyOfPair st.server_id b p ∉ keysOf st :=
      (lookupExec_eq_none_iff _ _).mp hnone
    show ((st.executions ++
      [(keyOfPair st.server_id b p,
        (⟨p.cid, st.counter, st.counter, [p.cid]⟩ : execution_data_t))]).map
          (fun e => e.1)).Nodup
    rw [List.map_append]
    rw [List.nodup_append]
    refine ⟨h, List.nodup_singleton _, ?_⟩
    intro x hx hx2
    rcases List.mem_singleton.mp (by simpa using hx2) with rfl
    exact hkey hx

theorem foldl_applyPair_keys_nodup (b : List (RegionT × BranchId))
    (l : List contract_pair_t) (st : contract_executor_t)
    (h : (keysOf st).Nodup) : (keysOf (l.foldl (applyPair b) st)).Nodup := by
  induction l generalizing st with
  | nil => exact h
  | cons p l ih => exact ih _ (applyPair_keys_nodup b st p h)

theorem deleteKey_keys_nodup (st : contract_executor_t) (k : execution_key_t)
    (h : (keysOf st).Nodup) : (keysOf (deleteKey st k)).Nodup := by
  rw [deleteKey_keys]
  exact h.filter _

theorem foldl_deleteKey_keys_nodup (dels : List execution_key_t)
    (st : contract_executor_t) (h : (keysOf st).Nodup) :
    (keysOf (dels.foldl deleteKey st)).Nodup := by
  induction dels generalizing st with
  | nil => exact h
  | cons d0 dels ih => exact ih _ (deleteKey_keys_nodup st d0 h)

theorem update_blocking_mem_keys (st : contract_executor_t)
    (s : table_raft_state_t) (k : execution_key_t) :
    k ∈ keysOf (update_blocking st s) ↔ k ∈ deriveKeys st.server_id s := by
  have hub : update_blocking st s = (update st s).2.foldl deleteKey (update st s).1 := rfl
  have hlook := foldl_deleteKey_lookup (update st s).2 (update st s).1 k
  constructor
  · intro hmem
    have hsome : (lookupExec (update_blocking st s).executions k).isSome = true :=
      (lookupExec_isSome_iff _ _).mpr hmem
    rw [hub, hlook] at hsome
    by_cases hdel : k ∈ (update st s).2
    · rw [if_pos hdel] at hsome
      simp at hsome
    · rw [if_neg hdel] at hsome
      have hkeys : k ∈ keysOf (update st s).1 := (lookupExec_isSome_iff _ _).mp hsome
      rcases foldl_applyPair_keys_subset s.current_branches s.contracts st k hkeys
        with hold | ⟨p, hp, hk⟩
      · by_contra hnd
        exact hdel (List.mem_filter.mpr ⟨hold, by simpa using hnd⟩)
      · rw [hk]
        exact List.mem_map_of_mem _ hp
  · intro hmem
    have hnotdel : k ∉ (update st s).2 := by
      intro hc
      rcases List.mem_filter.mp hc with ⟨_, hdec⟩
      rw [decide_eq_true_eq] at hdec
      exact hdec hmem
    have hkeys' : k ∈ keysOf (update st s).1 := by
      rcases List.mem_map.mp hmem with ⟨p, hp, hk⟩
      rw [← hk]
      exact foldl_applyPair_keys_new s.current_branches s.contracts st p hp
    apply (lookupExec_isSome_iff _ _).mp
    rw [hub, hlook, if_neg hnotdel]
    exact (lookupExec_isSome_iff _ _).mpr hkeys'

/-- C4: after a full reconciliation pass (`update` plus the deferred
deletions of `update_blocking`), the registry holds exactly one record per
execution key derivable from the latest snapshot: its key list is
duplicate-free and its key set is exactly the derived key set. -/
theorem full_pass_registry_claim4 (st : contract_executor_t)
    (s : table_raft_state_t) (hnd : (keysOf st).Nodup) :
    (keysOf (update_blocking st s)).Nodup ∧
    (∀ k, k ∈ keysOf (update_blocking st s) ↔ k ∈ deriveKeys st.server_id s) :=
  ⟨foldl_deleteKey_keys_nodup (update st s).2 (update st s).1
      (foldl_applyPair_keys_nodup s.current_branches s.contracts st hnd),
   fun k => update_blocking_mem_keys st s k⟩

/-- Witness for C4 at a concrete input: starting from the freshly constructed
executor, the pass over demoState leaves exactly the derived Primary key. -/
theorem full_pass_registry_claim4_witness :
    (keysOf (initExecutor 0)).Nodup ∧
    (demoKey ∈ keysOf (update_blocking (initExecutor 0) demoState) ↔
      demoKey ∈ deriveKeys (initExecutor 0).server_id demoState) := by
  have h := full_pass_registry_claim4 (initExecutor 0) demoState (by decide)
  exact ⟨by decide, h.2 demoKey⟩

theorem update_blocking_lookup_derived (st : contract_executor_t)
    (s : table_raft_state_t) (p : contract_pair_t)
    (hnd : (deriveKeys st.server_id s).Nodup) (hp : p ∈ s.contracts) :
    ∃ d, lookupExec (update_blocking st s).executions
        (keyOfPair st.server_id s.current_branches p) = some d ∧
      d.contract_id = p.cid := by
  have hnotdel : keyOfPair st.server_id s.current_branches p ∉ (update st s).2 := by
    intro hc
    rcases List.mem_filter.mp hc with ⟨_, hdec⟩
    rw [decide_eq_true_eq] at hdec
    exact hdec (List.mem_map_of_mem _ hp)
  have heq : lookupExec (update_blocking st s).executions
      (keyOfPair st.server_id s.current_branches p) =
      lookupExec (update st s).1.executions
        (keyOfPair st.server_id s.current_branches p) := by
    have hub : update_blocking st s =
        (update st s).2.foldl deleteKey (update st s).1 := rfl
    rw [hub, foldl_deleteKey_lookup, if_neg hnotdel]
  rw [heq]
  cases hl : lookupExec st.executions (keyOfPair st.server_id s.current_branches p) with
  | none =>
    rcases foldl_applyPair_lookup_create s.current_branches s.contracts st p hnd hp hl
      with ⟨t, _, hlk⟩
    exact ⟨_, hlk, rfl⟩
  | some d0 =>
    exact ⟨_, foldl_applyPair_lookup_update s.current_branches s.contracts st p d0 hnd hp hl,
      rfl⟩

/-- C5: re-reconciling the very snapshot a full pass just applied is
idempotent — the second `update` reports no deletions, allocates nothing (key
list and counter unchanged), and leaves every record's execution object, store
subview and contract id as they were (the contract id is merely re-written to
the identical value). -/
theorem idempotent_claim5 (st : contract_executor_t) (s : table_raft_state_t)
    (hnds : (deriveKeys st.server_id s).Nodup) :
    (update (update_blocking st s) s).2 = [] ∧
    keysOf (update (update_blocking st s) s).1 = keysOf (update_blocking st s) ∧
    (update (update_blocking st s) s).1.counter = (update_blocking st s).counter ∧
    (∀ k d, lookupExec (update_blocking st s).executions k = some d →
      ∃ d', lookupExec (update (update_blocking st s) s).1.executions k = some d' ∧
        d'.execution = d.execution ∧ d'.store_subview = d.store_subview ∧
        d'.contract_id = d.contract_id) := by
  have hsid : (update_blocking st s).server_id = st.server_id :=
    update_blocking_server_id st s
  have hmem : ∀ k, k ∈ keysOf (update_blocking st s) ↔ k ∈ deriveKeys st.server_id s :=
    update_blocking_mem_keys st s
  have hnd1 : (deriveKeys (update_blocking st s).server_id s).Nodup := by
    rw [hsid]
    exact hnds
  have hdels : (update (update_blocking st s) s).2 = [] := by
    show (keysOf (update_blocking st s)).filter
      (fun x => decide (x ∉ deriveKeys (update_blocking st s).server_id s)) = []
    rw [List.filter_eq_nil_iff]
    intro k hk
    rw [decide_eq_true_eq, hsid]
    intro hc
    exact hc ((hmem k).mp hk)
  have hall : ∀ p ∈ s.contracts,
      keyOfPair (update_blocking st s).server_id s.current_branches p ∈
        keysOf (update_blocking st s) := by
    intro p hp
    rw [hsid]
    exact (hmem _).mpr (List.mem_map_of_mem _ hp)
  have hexact := foldl_applyPair_keys_exact s.current_branches s.contracts
    (update_blocking st s) hall
  refine ⟨hdels, hexact.1, hexact.2, ?_⟩
  intro k d hlk
  have hk1 : k ∈ keysOf (update_blocking st s) := by
    rw [keysOf, ← lookupExec_isSome_iff, hlk]
    rfl
  rcases List.mem_map.mp ((hmem k).mp hk1) with ⟨p, hp, hkey⟩
  rcases update_blocking_lookup_derived st s p hnds hp with ⟨d0, hld0, hcid0⟩
  rw [hkey] at hld0
  rw [hlk] at hld0
  have hd0 : d0 = d := by injection hld0.symm
  subst hd0
  have hlk' : lookupExec (update_blocking st s).executions
      (keyOfPair (update_blocking st s).server_id s.current_branches p) = some d0 := by
    rw [hsid, hkey]
    exact hlk
  have h2 := foldl_applyPair_lookup_update s.current_branches s.contracts
    (update_blocking st s) p d0 hnd1 hp hlk'
  rw [hsid, hkey] at h2
  exact ⟨_, h2, rfl, rfl, hcid0.symm⟩

/-- Witness for C5 at a concrete input: a second pass over demoState reports
no deletions. -/
theorem idempotent_claim5_witness :
    (update (update_blocking (initExecutor 0) demoState) demoState).2 = [] := by
  have h := idempotent_claim5 (initExecutor 0) demoState (by decide)
  exact h.1

theorem pumpStep_active_le (ps : pump_state_t) (e : pump_event_t)
    (h : ps.active ≤ 1) : (pumpStep ps e).active ≤ 1 := by
  cases e with
  | signal s =>
    unfold pumpStep
    by_cases h0 : ps.active = 0 <;> simp [h0]
    exact h
  | finish =>
    simp only [pumpStep]
    by_cases h0 : ps.active = 0
    · simp [h0]
    · by_cases hd : ps.dirty <;> simp [h0, hd]

theorem pump_signals_coalesce (ss : List table_raft_state_t) (ps : pump_state_t)
    (h1 : ps.active = 1) (hne : ss ≠ []) :
    (ss.map pump_event_t.signal).foldl pumpStep ps =
      { active := 1, dirty := true, latest := ss.getLastD ps.latest,
        engine := ps.engine } := by
  induction ss generalizing ps with
  | nil => exact absurd rfl hne
  | cons s0 ss ih =>
    rw [List.map_cons, List.foldl_cons]
    have hstep : pumpStep ps (pump_event_t.signal s0) =
        { ps with latest := s0, dirty := true } := by
      simp only [pumpStep]
      rw [if_neg (by omega)]
    rw [hstep]
    by_cases hss : ss = []
    · subst hss
      simp only [List.map_nil, List.foldl_nil]
      show ({ active := ps.active, dirty := true, latest := s0, engine := ps.engine } : pump_state_t) = _
      rw [h1]
      simp [List.getLastD_cons, List.getLastD_nil]
    · have hact : ({ active := ps.active, dirty := true, latest := s0, engine := ps.engine } : pump_state_t).active = 1 := h1
      rw [ih { active := ps.active, dirty := true, latest := s0, engine := ps.engine } hact hss]
      rcases ss with _ | ⟨a, t⟩
      · exact absurd rfl hss
      · simp only [List.getLastD_cons]

/-- C6: the change-driven pump serializes passes — from the idle initial
state, any event sequence keeps the number of concurrently executing
reconciliation-and-deletion passes at most one — and any burst of change
signals arriving while a pass runs coalesces into exactly one further pass:
after the burst the flag is set once, the running pass finishes into exactly
one respawned pass, and that single extra pass reconciles the last observed
agreed state, after which the pump is idle. -/
theorem pump_serializes_claim6 :
    (∀ (sid : ServerId) (s0 : table_raft_state_t) (evs : List pump_event_t),
      (evs.foldl pumpStep (pumpInit sid s0)).active ≤ 1) ∧
    (∀ (ps : pump_state_t) (ss : List table_raft_state_t),
      ps.active = 1 → ss ≠ [] →
      (ss.map pump_event_t.signal).foldl pumpStep ps =
        { active := 1, dirty := true, latest := ss.getLastD ps.latest,
          engine := ps.engine } ∧
      pumpStep (pumpStep ((ss.map pump_event_t.signal).foldl pumpStep ps)
          pump_event_t.finish) pump_event_t.finish =
        { active := 0, dirty := false, latest := ss.getLastD ps.latest,
          engine := update_blocking (update_blocking ps.engine (ss.getLastD ps.latest))
            (ss.getLastD ps.latest) }) := by
  constructor
  · intro sid s0 evs
    have hinit : (pumpInit sid s0).active ≤ 1 := by simp [pumpInit]
    induction evs generalizing sid s0 with
    | nil => exact hinit
    | cons e evs ih =>
      rw [List.foldl_cons]
      -- generalize over the new start state
      have := pumpStep_active_le (pumpInit sid s0) e hinit
      -- fold over arbitrary states preserves the bound
      clear ih hinit
      generalize hps : pumpStep (pumpInit sid s0) e = ps at this
      clear hps
      induction evs generalizing ps with
      | nil => exact this
      | cons e2 evs ih2 =>
        rw [List.foldl_cons]
        exact ih2 _ (pumpStep_active_le ps e2 this)
  · intro ps ss h1 hne
    have hco := pump_signals_coalesce ss ps h1 hne
    refine ⟨hco, ?_⟩
    rw [hco]
    simp [pumpStep]

/-- Witness for C6's coalescing clause at a concrete input: two signals
during a running pass collapse into one pending flag, and the single extra
pass reconciles the later snapshot. -/
theorem pump_serializes_claim6_witness :
    ([demoState, demoState2].map pump_event_t.signal).foldl pumpStep
        { active := 1, dirty := false, latest := demoState,
          engine := initExecutor 0 } =
      { active := 1, dirty := true, latest := demoState2,
        engine := initExecutor 0 } := by
  have h := pump_serializes_claim6.2
    { active := 1, dirty := false, latest := demoState, engine := initExecutor 0 }
    [demoState, demoState2] rfl (by simp)
  exact h.1

theorem filter_filter_of_imp {α : Type} (l : List α) (p q : α → Bool)
    (h : ∀ a, q a = true → p a = true) :
    (l.filter p).filter q = l.filter q := by
  induction l with
  | nil => rfl
  | cons x l ih =>
    by_cases hq : q x = true
    · have hp : p x = true := h x hq
      simp [List.filter_cons, hp, hq, ih]
    · by_cases hp : p x = true <;> simp [List.filter_cons, hp, hq, ih]

theorem insert_record_inv (st : contract_executor_t) (k : execution_key_t)
    (cid : ContractId) (hkey : k ∉ keysOf st) (h : Inv st) :
    Inv { st with
      executions := st.executions ++
        [(k, (⟨cid, st.counter, st.counter, [cid]⟩ : execution_data_t))],
      counter := st.counter + 1,
      bcards :=
        if k.role = role_t.primary then
          st.bcards ++ [((st.server_id, k.branch), st.counter)]
        else st.bcards,
      qcards :=
        if k.role = role_t.primary then st.qcards ++ [(st.counter, st.counter)]
        else st.qcards } := by
  have htokne : ∀ e ∈ st.executions, e.2.execution ≠ st.counter := by
    intro e he hcon
    have hlt := h.tok_lt e he
    rw [hcon] at hlt
    exact Nat.lt_irrefl _ hlt
  have hbne : ∀ c ∈ st.bcards, c.2 ≠ st.counter := by
    intro c hc
    rcases h.bcard_live c hc with ⟨e, he, _, hexe, _⟩
    rw [← hexe]
    exact htokne e he
  have hqne : ∀ c ∈ st.qcards, c.1 ≠ st.counter := by
    intro c hc
    rcases h.qcard_live c hc with ⟨e, he, _, hexe⟩
    rw [← hexe]
    exact htokne e he
  refine ⟨?_, ?_, ?_, ?_, ?_, ?_, ?_, ?_, ?_⟩
  · show ((st.executions ++
      [(k, (⟨cid, st.counter, st.counter, [cid]⟩ : execution_data_t))]).map
        (fun e => e.1)).Nodup
    rw [List.map_append, List.nodup_append]
    refine ⟨h.keys_nodup, List.nodup_singleton _, ?_⟩
    intro x hx hx2
    have hxk : x = k := by simpa using hx2
    subst hxk
    exact hkey hx
  · show ∀ e' ∈ st.executions ++
      [(k, (⟨cid, st.counter, st.counter, [cid]⟩ : execution_data_t))],
      e'.2.execution < st.counter + 1
    intro e' he'
    rcases List.mem_append.mp he' with he' | he'
    · exact Nat.lt_succ_of_lt (h.tok_lt e' he')
    · rcases List.mem_singleton.mp he' with rfl
      exact Nat.lt_succ_self _
  · show ((st.executions ++
      [(k, (⟨cid, st.counter, st.counter, [cid]⟩ : execution_data_t))]).map
        (fun e => e.2.execution)).Nodup
    rw [List.map_append, List.nodup_append]
    refine ⟨h.tok_nodup, List.nodup_singleton _, ?_⟩
    intro x hx hx2
    have hxk : x = st.counter := by simpa using hx2
    subst hxk
    rcases List.mem_map.mp hx with ⟨e, he, hxe⟩
    exact htokne e he hxe
  · show ∀ c ∈ (if k.role = role_t.primary then
        st.bcards ++ [((st.server_id, k.branch), st.counter)] else st.bcards),
      ∃ e ∈ st.executions ++
        [(k, (⟨cid, st.counter, st.counter, [cid]⟩ : execution_data_t))],
        e.1.role = role_t.primary ∧ e.2.execution = c.2 ∧
          c.1 = (st.server_id, e.1.branch)
    intro c hc
    by_cases hrk : k.role = role_t.primary
    · rw [if_pos hrk] at hc
      rcases List.mem_append.mp hc with hc | hc
      · rcases h.bcard_live c hc with ⟨e, he, hrole, hexe, hfst⟩
        exact ⟨e, List.mem_append_left _ he, hrole, hexe, hfst⟩
      · rcases List.mem_singleton.mp hc with rfl
        exact ⟨(k, ⟨cid, st.counter, st.counter, [cid]⟩),
          List.mem_append_right _ (List.mem_singleton_self _), hrk, rfl, rfl⟩
    · rw [if_neg hrk] at hc
      rcases h.bcard_live c hc with ⟨e, he, hrole, hexe, hfst⟩
      exact ⟨e, List.mem_append_left _ he, hrole, hexe, hfst⟩
  · show ∀ c ∈ (if k.role = role_t.primary then
        st.qcards ++ [(st.counter, st.counter)] else st.qcards),
      ∃ e ∈ st.executions ++
        [(k, (⟨cid, st.counter, st.counter, [cid]⟩ : execution_data_t))],
        e.1.role = role_t.primary ∧ e.2.execution = c.1
    intro c hc
    by_cases hrk : k.role = role_t.primary
    · rw [if_pos hrk] at hc
      rcases List.mem_append.mp hc with hc | hc
      · rcases h.qcard_live c hc with ⟨e, he, hrole, hexe⟩
        exact ⟨e, List.mem_append_left _ he, hrole, hexe⟩
      · rcases List.mem_singleton.mp hc with rfl
        exact ⟨(k, ⟨cid, st.counter, st.counter, [cid]⟩),
          List.mem_append_right _ (List.mem_singleton_self _), hrk, rfl⟩
    · rw [if_neg hrk] at hc
      rcases h.qcard_live c hc with ⟨e, he, hrole, hexe⟩
      exact ⟨e, List.mem_append_left _ he, hrole, hexe⟩
  · show ∀ e' ∈ st.executions ++
      [(k, (⟨cid, st.counter, st.counter, [cid]⟩ : execution_data_t))],
      e'.1.role = role_t.primary →
      ((if k.role = role_t.primary then
          st.bcards ++ [((st.server_id, k.branch), st.counter)]
        else st.bcards).filter (fun c => decide (c.2 = e'.2.execution))).length = 1
    intro e' he' hrole'
    rcases List.mem_append.mp he' with he' | he'
    · have hne := htokne e' he'
      by_cases hrk : k.role = role_t.primary
      · rw [if_pos hrk, List.filter_append]
        have hright : ([((st.server_id, k.branch), st.counter)].filter
            (fun c => decide (c.2 = e'.2.execution))) = [] := by
          simp only [List.filter_cons, List.filter_nil]
          rw [if_neg (by simpa using fun hcon => hne hcon.symm)]
        rw [hright, List.append_nil]
        exact h.bcard_one e' he' hrole'
      · rw [if_neg hrk]
        exact h.bcard_one e' he' hrole'
    · rcases List.mem_singleton.mp he' with rfl
      have hrk : k.role = role_t.primary := hrole'
      show ((if k.role = role_t.primary then
          st.bcards ++ [((st.server_id, k.branch), st.counter)]
        else st.bcards).filter (fun c => decide (c.2 = st.counter))).length = 1
      rw [if_pos hrk, List.filter_append]
      have hleft : (st.bcards.filter (fun c => decide (c.2 = st.counter))) = [] := by
        rw [List.filter_eq_nil_iff]
        intro c hc
        simpa using hbne c hc
      rw [hleft, List.nil_append]
      simp
  · show ∀ e' ∈ st.executions ++
      [(k, (⟨cid, st.counter, st.counter, [cid]⟩ : execution_data_t))],
      e'.1.role = role_t.primary →
      ((if k.role = role_t.primary then st.qcards ++ [(st.counter, st.counter)]
        else st.qcards).filter (fun c => decide (c.1 = e'.2.execution))).length = 1
    intro e' he' hrole'
    rcases List.mem_append.mp he' with he' | he'
    · have hne := htokne e' he'
      by_cases hrk : k.role = role_t.primary
      · rw [if_pos hrk, List.filter_append]
        have hright : ([(st.counter, st.counter)].filter
            (fun c => decide (c.1 = e'.2.execution))) = [] := by
          simp only [List.filter_cons, List.filter_nil]
          rw [if_neg (by simpa using fun hcon => hne hcon.symm)]
        rw [hright, List.append_nil]
        exact h.qcard_one e' he' hrole'
      · rw [if_neg hrk]
        exact h.qcard_one e' he' hrole'
    · rcases List.mem_singleton.mp he' with rfl
      have hrk : k.role = role_t.primary := hrole'
      show ((if k.role = role_t.primary then st.qcards ++ [(st.counter, st.counter)]
        else st.qcards).filter (fun c => decide (c.1 = st.counter))).length = 1
      rw [if_pos hrk, List.filter_append]
      have hleft : (st.qcards.filter (fun c => decide (c.1 = st.counter))) = [] := by
        rw [List.filter_eq_nil_iff]
        intro c hc
        simpa using hqne c hc
      rw [hleft, List.nil_append]
      simp
  · show ∀ a ∈ st.ack_map, a.1.1 = st.server_id
    exact h.ack_sid
  · show ∀ c ∈ (if k.role = role_t.primary then
        st.bcards ++ [((st.server_id, k.branch), st.counter)] else st.bcards),
      c.1.1 = st.server_id
    intro c hc
    by_cases hrk : k.role = role_t.primary
    · rw [if_pos hrk] at hc
      rcases List.mem_append.mp hc with hc | hc
      · exact h.bcard_sid c hc
      · rcases List.mem_singleton.mp hc with rfl
        rfl
    · rw [if_neg hrk] at hc
      exact h.bcard_sid c hc

theorem applyPair_inv (b : List (RegionT × BranchId)) (st : contract_executor_t)
    (p : contract_pair_t) (h : Inv st) : Inv (applyPair b st p) := by
  by_cases hs : (lookupExec st.executions (keyOfPair st.server_id b p)).isSome = true
  · -- in-place contract-id update: keys, tokens and cards unchanged
    have happ : applyPair b st p =
        { st with executions := updateCid st.executions (keyOfPair st.server_id b p) p.cid } := by
      unfold applyPair
      simp only [hs, if_true]
    rw [happ]
    refine ⟨?_, ?_, ?_, ?_, ?_, ?_, ?_, ?_, ?_⟩
    · show ((updateCid st.executions (keyOfPair st.server_id b p) p.cid).map (fun e => e.1)).Nodup
      rw [updateCid_keys]
      exact h.keys_nodup
    · intro e' he'
      rcases List.mem_map.mp he' with ⟨e, he, rfl⟩
      by_cases hk : e.1 = keyOfPair st.server_id b p
      · rw [if_pos hk]
        exact h.tok_lt e he
      · rw [if_neg hk]
        exact h.tok_lt e he
    · show ((updateCid st.executions (keyOfPair st.server_id b p) p.cid).map
        (fun e => e.2.execution)).Nodup
      rw [updateCid_tokens]
      exact h.tok_nodup
    · intro c hc
      rcases h.bcard_live c hc with ⟨e, he, hrole, hexe, hfst⟩
      by_cases hk : e.1 = keyOfPair st.server_id b p
      · exact ⟨(e.1, { e.2 with contract_id := p.cid, assigned := e.2.assigned ++ [p.cid] }),
          List.mem_map.mpr ⟨e, he, by rw [if_pos hk]⟩, hrole, hexe, hfst⟩
      · exact ⟨e, List.mem_map.mpr ⟨e, he, by rw [if_neg hk]⟩, hrole, hexe, hfst⟩
    · intro c hc
      rcases h.qcard_live c hc with ⟨e, he, hrole, hexe⟩
      by_cases hk : e.1 = keyOfPair st.server_id b p
      · exact ⟨(e.1, { e.2 with contract_id := p.cid, assigned := e.2.assigned ++ [p.cid] }),
          List.mem_map.mpr ⟨e, he, by rw [if_pos hk]⟩, hrole, hexe⟩
      · exact ⟨e, List.mem_map.mpr ⟨e, he, by rw [if_neg hk]⟩, hrole, hexe⟩
    · intro e' he' hrole'
      rcases List.mem_map.mp he' with ⟨e, he, rfl⟩
      by_cases hk : e.1 = keyOfPair st.server_id b p
      · rw [if_pos hk] at hrole' ⊢
        exact h.bcard_one e he hrole'
      · rw [if_neg hk] at hrole' ⊢
        exact h.bcard_one e he hrole'
    · intro e' he' hrole'
      rcases List.mem_map.mp he' with ⟨e, he, rfl⟩
      by_cases hk : e.1 = keyOfPair st.server_id b p
      · rw [if_pos hk] at hrole' ⊢
        exact h.qcard_one e he hrole'
      · rw [if_neg hk] at hrole' ⊢
        exact h.qcard_one e he hrole'
    · exact h.ack_sid
    · exact h.bcard_sid
  · -- fresh record: factored out as insert_record_inv
    have hnone : lookupExec st.executions (keyOfPair st.server_id b p) = none := by
      cases hl : lookupExec st.executions (keyOfPair st.server_id b p) with
      | none => rfl
      | some d => rw [hl] at hs; simp at hs
    have hkeynot : keyOfPair st.server_id b p ∉ keysOf st :=
      (lookupExec_eq_none_iff _ _).mp hnone
    have happ : applyPair b st p =
        { st with
          executions := st.executions ++
            [(keyOfPair st.server_id b p,
              (⟨p.cid, st.counter, st.counter, [p.cid]⟩ : execution_data_t))],
          counter := st.counter + 1,
          bcards :=
            if (keyOfPair st.server_id b p).role = role_t.primary then
              st.bcards ++ [((st.server_id, (keyOfPair st.server_id b p).branch), st.counter)]
            else st.bcards,
          qcards :=
            if (keyOfPair st.server_id b p).role = role_t.primary then
              st.qcards ++ [(st.counter, st.counter)]
            else st.qcards } := by
      unfold applyPair
      simp only [hs, Bool.false_eq_true, if_false]
    rw [happ]
    exact insert_record_inv st (keyOfPair st.server_id b p) p.cid hkeynot h


theorem deleteKey_inv (st : contract_executor_t) (k : execution_key_t)
    (h : Inv st) : Inv (deleteKey st k) := by
  cases hl : lookupExec st.executions k with
  | none =>
    have hdel : deleteKey st k = st := by
      unfold deleteKey
      rw [hl]
    rw [hdel]
    exact h
  | some d =>
    have hdel : deleteKey st k =
        { st with
          executions := st.executions.filter (fun e => decide (e.1 ≠ k)),
          bcards := st.bcards.filter (fun c => decide (c.2 ≠ d.execution)),
          qcards := st.qcards.filter (fun c => decide (c.1 ≠ d.execution)) } := by
      unfold deleteKey
      rw [hl]
    rw [hdel]
    have hkd : (k, d) ∈ st.executions := lookupExec_mem _ _ _ hl
    have htokn : (st.executions.map (fun e => e.2.execution)).Nodup := h.tok_nodup
    refine ⟨?_, ?_, ?_, ?_, ?_, ?_, ?_, ?_, ?_⟩
    · show ((st.executions.filter (fun e => decide (e.1 ≠ k))).map (fun e => e.1)).Nodup
      rw [filter_keys_comm]
      exact h.keys_nodup.filter _
    · intro e' he'
      exact h.tok_lt e' (List.mem_filter.mp he').1
    · show ((st.executions.filter (fun e => decide (e.1 ≠ k))).map
        (fun e => e.2.execution)).Nodup
      exact List.Nodup.sublist ((List.filter_sublist _).map _) htokn
    · intro c hc
      rcases List.mem_filter.mp hc with ⟨hc1, hc2⟩
      rw [decide_eq_true_eq] at hc2
      rcases h.bcard_live c hc1 with ⟨e, he, hrole, hexe, hfst⟩
      have hene : e.1 ≠ k := by
        intro hek
        have hlk := lookupExec_eq_of_mem st.executions h.keys_nodup e he
        rw [hek, hl] at hlk
        have hed : e.2 = d := by
          injection hlk with hv
          exact hv.symm
        apply hc2
        rw [← hexe, hed]
      exact ⟨e, List.mem_filter.mpr ⟨he, by simpa using hene⟩, hrole, hexe, hfst⟩
    · intro c hc
      rcases List.mem_filter.mp hc with ⟨hc1, hc2⟩
      rw [decide_eq_true_eq] at hc2
      rcases h.qcard_live c hc1 with ⟨e, he, hrole, hexe⟩
      have hene : e.1 ≠ k := by
        intro hek
        have hlk := lookupExec_eq_of_mem st.executions h.keys_nodup e he
        rw [hek, hl] at hlk
        have hed : e.2 = d := by
          injection hlk with hv
          exact hv.symm
        apply hc2
        rw [← hexe, hed]
      exact ⟨e, List.mem_filter.mpr ⟨he, by simpa using hene⟩, hrole, hexe⟩
    · intro e' he' hrole'
      rcases List.mem_filter.mp he' with ⟨he1, he2⟩
      rw [decide_eq_true_eq] at he2
      have hne : e'.2.execution ≠ d.execution := by
        intro heq
        have hek : e' = (k, d) := List.inj_on_of_nodup_map htokn he1 hkd heq
        apply he2
        rw [hek]
      have himp : ∀ a : (ServerId × Option BranchId) × Nat,
          decide (a.2 = e'.2.execution) = true → decide (a.2 ≠ d.execution) = true := by
        intro a ha
        rw [decide_eq_true_eq] at ha
        rw [decide_eq_true_eq, ha]
        exact hne
      rw [filter_filter_of_imp _ _ _ himp]
      exact h.bcard_one e' he1 hrole'
    · intro e' he' hrole'
      rcases List.mem_filter.mp he' with ⟨he1, he2⟩
      rw [decide_eq_true_eq] at he2
      have hne : e'.2.execution ≠ d.execution := by
        intro heq
        have hek : e' = (k, d) := List.inj_on_of_nodup_map htokn he1 hkd heq
        apply he2
        rw [hek]
      have himp : ∀ a : Nat × Nat,
          decide (a.1 = e'.2.execution) = true → decide (a.1 ≠ d.execution) = true := by
        intro a ha
        rw [decide_eq_true_eq] at ha
        rw [decide_eq_true_eq, ha]
        exact hne
      rw [filter_filter_of_imp _ _ _ himp]
      exact h.qcard_one e' he1 hrole'
    · exact h.ack_sid
    · intro c hc
      exact h.bcard_sid c (List.mem_filter.mp hc).1

theorem mem_setAck (m : List ((ServerId × ContractId) × Nat))
    (key : ServerId × ContractId) (v : Nat) (a : (ServerId × ContractId) × Nat)
    (ha : a ∈ setAck m key v) : a ∈ m ∨ a.1 = key := by
  unfold setAck at ha
  by_cases hf : ((m.find? (fun e => decide (e.1 = key))).isSome) = true
  · rw [if_pos hf] at ha
    rcases List.mem_map.mp ha with ⟨e, he, rfl⟩
    by_cases hek : e.1 = key
    · rw [if_pos hek]
      right
      rfl
    · rw [if_neg hek]
      left
      exact he
  · rw [if_neg hf] at ha
    rcases List.mem_append.mp ha with h1 | h1
    · left
      exact h1
    · right
      rcases List.mem_singleton.mp h1 with rfl
      rfl

theorem send_ack_inv (st : contract_executor_t) (k : execution_key_t)
    (cid : ContractId) (a : Nat) (h : Inv st) : Inv (send_ack st k cid a) := by
  unfold send_ack
  cases hl : lookupExec st.executions k with
  | none => exact h
  | some d =>
    show Inv (if cid ∈ d.assigned then
      { st with ack_map := setAck st.ack_map (st.server_id, cid) a } else st)
    by_cases hca : cid ∈ d.assigned
    · rw [if_pos hca]
      refine ⟨h.keys_nodup, h.tok_lt, h.tok_nodup, h.bcard_live, h.qcard_live,
        h.bcard_one, h.qcard_one, ?_, h.bcard_sid⟩
      intro x hx
      rcases mem_setAck st.ack_map (st.server_id, cid) a x hx with hx1 | hx1
      · exact h.ack_sid x hx1
      · rw [hx1]
    · rw [if_neg hca]
      exact h

theorem foldl_applyPair_inv (b : List (RegionT × BranchId))
    (l : List contract_pair_t) (st : contract_executor_t) (h : Inv st) :
    Inv (l.foldl (applyPair b) st) := by
  induction l generalizing st with
  | nil => exact h
  | cons p l ih => exact ih _ (applyPair_inv b st p h)

theorem foldl_deleteKey_inv (dels : List execution_key_t)
    (st : contract_executor_t) (h : Inv st) : Inv (dels.foldl deleteKey st) := by
  induction dels generalizing st with
  | nil => exact h
  | cons d0 dels ih => exact ih _ (deleteKey_inv st d0 h)

theorem update_blocking_inv (st : contract_executor_t) (s : table_raft_state_t)
    (h : Inv st) : Inv (update_blocking st s) :=
  foldl_deleteKey_inv (update st s).2 (update st s).1
    (foldl_applyPair_inv s.current_branches s.contracts st h)

theorem inv_init (sid : ServerId) : Inv (initExecutor sid) := by
  refine ⟨?_, ?_, ?_, ?_, ?_, ?_, ?_, ?_, ?_⟩ <;>
    simp [initExecutor, keysOf, tokensOf]

theorem inv_reachable (st : contract_executor_t) (h : Reachable st) : Inv st := by
  induction h with
  | init sid => exact inv_init sid
  | pass s hr ih => exact update_blocking_inv _ s ih
  | ack k cid a hr ih => exact send_ack_inv _ k cid a ih

/-- C7: at every reachable executor state, both broadcast-card maps contain
entries only for Primary executions whose record is live in the registry (each
card's owner is a live Primary record, its key carrying this server's id and
the record's branch), and every live Primary record owns exactly one card in
each map. -/
theorem primary_cards_claim7 (st : contract_executor_t) (h : Reachable st) :
    (∀ c ∈ st.bcards, ∃ e ∈ st.executions,
      e.1.role = role_t.primary ∧ e.2.execution = c.2 ∧
        c.1 = (st.server_id, e.1.branch)) ∧
    (∀ c ∈ st.qcards, ∃ e ∈ st.executions,
      e.1.role = role_t.primary ∧ e.2.execution = c.1) ∧
    (∀ e ∈ st.executions, e.1.role = role_t.primary →
      (st.bcards.filter (fun c => decide (c.2 = e.2.execution))).length = 1 ∧
      (st.qcards.filter (fun c => decide (c.1 = e.2.execution))).length = 1) := by
  have hinv := inv_reachable st h
  exact ⟨hinv.bcard_live, hinv.qcard_live,
    fun e he hr => ⟨hinv.bcard_one e he hr, hinv.qcard_one e he hr⟩⟩

/-- Witness for C7 at a concrete reachable state: after reconciling demoState
the live Primary record (execution token 0) owns exactly one execution
broadcast card. -/
theorem primary_cards_claim7_witness :
    ((update_blocking (initExecutor 0) demoState).bcards.filter
      (fun c => decide (c.2 = 0))).length = 1 := by
  have h := primary_cards_claim7 (update_blocking (initExecutor 0) demoState)
    (Reachable.pass demoState (Reachable.init 0))
  exact (h.2.2 (demoKey, demoData) (by decide) (by decide)).1

/-- C10: the engine's server identity is constant across every operation
(reconciliation passes and ack callbacks never change the `server_id` field,
mirroring the `const` member), and at every reachable state every key in the
ack map and the execution broadcast-card map carries that construction-time
identity as its server-identity component. -/
theorem server_identity_claim10 :
    (∀ (st : contract_executor_t) (s : table_raft_state_t),
      (update_blocking st s).server_id = st.server_id) ∧
    (∀ (st : contract_executor_t) (k : execution_key_t) (cid : ContractId) (a : Nat),
      (send_ack st k cid a).server_id = st.server_id) ∧
    (∀ st : contract_executor_t, Reachable st →
      (∀ a ∈ st.ack_map, a.1.1 = st.server_id) ∧
      (∀ c ∈ st.bcards, c.1.1 = st.server_id)) := by
  refine ⟨update_blocking_server_id, ?_, ?_⟩
  · intro st k cid a
    unfold send_ack
    cases hl : lookupExec st.executions k with
    | none => rfl
    | some d =>
      show (if cid ∈ d.assigned then
        { st with ack_map := setAck st.ack_map (st.server_id, cid) a }
        else st).server_id = st.server_id
      by_cases hca : cid ∈ d.assigned
      · rw [if_pos hca]
      · rw [if_neg hca]
  · intro st h
    have hinv := inv_reachable st h
    exact ⟨hinv.ack_sid, hinv.bcard_sid⟩

/-- Witness for C10 at a concrete reachable state: the ack published after the
demoState pass carries the construction-time server id 0 in its key. -/
theorem server_identity_claim10_witness :
    ((0, 5), 7).1.1 =
      (send_ack (update_blocking (initExecutor 0) demoState) demoKey 5 7).server_id :=
  (server_identity_claim10.2.2 _
    (Reachable.ack demoKey 5 7 (Reachable.pass demoState (Reachable.init 0)))).1
    ((0, 5), 7) (by decide)

/-- C8: `send_ack` publishes an ack only while the calling execution still
governs the contract id — a dead key publishes nothing; after a key change
the freshly created replacement record (whose execution was only ever
assigned the new contract id) never publishes an ack for the old id; but
after an in-place contract-id update on a stable key, an ack for the old id
is still published, until the execution catches up. -/
theorem ack_governs_claim8 :
    (∀ (st : contract_executor_t) (k : execution_key_t) (cid : ContractId) (a : Nat),
      lookupExec st.executions k = none → send_ack st k cid a = st) ∧
    (∀ (st : contract_executor_t) (s : table_raft_state_t) (p : contract_pair_t)
        (oldCid : ContractId) (a : Nat),
      (deriveKeys st.server_id s).Nodup → p ∈ s.contracts →
      lookupExec st.executions (keyOfPair st.server_id s.current_branches p) = none →
      oldCid ≠ p.cid →
      send_ack (update st s).1 (keyOfPair st.server_id s.current_branches p) oldCid a =
        (update st s).1) ∧
    (∀ (st : contract_executor_t) (s : table_raft_state_t) (p : contract_pair_t)
        (d : execution_data_t) (oldCid : ContractId) (a : Nat),
      (deriveKeys st.server_id s).Nodup → p ∈ s.contracts →
      lookupExec st.executions (keyOfPair st.server_id s.current_branches p) = some d →
      oldCid ∈ d.assigned →
      send_ack (update st s).1 (keyOfPair st.server_id s.current_branches p) oldCid a =
        { (update st s).1 with
          ack_map := setAck (update st s).1.ack_map ((update st s).1.server_id, oldCid) a }) := by
  refine ⟨?_, ?_, ?_⟩
  · intro st k cid a hl
    unfold send_ack
    rw [hl]
  · intro st s p oldCid a hnd hp hl hne
    rcases foldl_applyPair_lookup_create s.current_branches s.contracts st p hnd hp hl
      with ⟨t, _, hlk⟩
    have hlk2 : lookupExec (update st s).1.executions
        (keyOfPair st.server_id s.current_branches p) =
        some ⟨p.cid, t, t, [p.cid]⟩ := hlk
    unfold send_ack
    rw [hlk2]
    show (if oldCid ∈ [p.cid] then _ else (update st s).1) = (update st s).1
    rw [if_neg (by simpa using hne)]
  · intro st s p d oldCid a hnd hp hl hmem
    have hlk := foldl_applyPair_lookup_update s.current_branches s.contracts st p d hnd hp hl
    have hlk2 : lookupExec (update st s).1.executions
        (keyOfPair st.server_id s.current_branches p) =
        some { d with contract_id := p.cid, assigned := d.assigned ++ [p.cid] } := hlk
    unfold send_ack
    rw [hlk2]
    show (if oldCid ∈ d.assigned ++ [p.cid] then
      { (update st s).1 with
        ack_map := setAck (update st s).1.ack_map ((update st s).1.server_id, oldCid) a }
      else (update st s).1) = _
    rw [if_pos (List.mem_append_left _ hmem)]

/-- Witness for C8 at concrete inputs: after the key change of demoState2 the
replacement Secondary record does not publish an ack for the old contract id
5, while a repeated pass over demoState (stable key) still publishes an ack
for the id the record already carried. -/
theorem ack_governs_claim8_witness :
    send_ack (update (update_blocking (initExecutor 0) demoState) demoState2).1
        { region := 1, role := role_t.secondary, primary := some 9, branch := some 3 }
        5 7 =
      (update (update_blocking (initExecutor 0) demoState) demoState2).1 := by
  have h := ack_governs_claim8.2.1 (update_blocking (initExecutor 0) demoState)
    demoState2 ⟨6, 1, ⟨some 9, [0]⟩⟩ 5 7 (by decide) (by decide) (by decide) (by decide)
  exact h

end RethinkExec
